import Mathlib

/-!
Verification model of the translation reconciliation tool `traduora-update`.

The data model and operations below are shallow embeddings of the Rust
sources:

* `src/loader/data.rs` — the two-stage merge/refinement engine (`merge`,
  `load_data`), the `Modification` and `Translation` types;
* `src/loader/local.rs` / `src/loader/remote.rs` — the local and remote
  snapshot record types and the pure join inside `fetch_from_traduora`;
* `src/updater.rs` — the action executor `run` with its aggregated `Error`.

Rust's `Vec` becomes `List`, `sort_unstable_by(cmp_by_term)` becomes an
insertion sort keyed by the term (keys are unique in every snapshot, so any
comparison sort yields the same list), `itertools::merge_join_by` becomes
`mergeJoinBy`, and the fallible remote calls of the updater become oracle
functions returning `Except`. Term keys are kept abstract behind a linear
order, matching the string order used by the code; remote term identifiers
(`TermId`) are strings.
-/

/-! ## Definitions -/

/-- Three-valued comparison derived from a linear order; this is the
semantics of Rust's `Ord::cmp` on the key type. -/
def cmpK {K : Type} [LinearOrder K] (a b : K) : Ordering :=
  if a < b then .lt else if a = b then .eq else .gt

/-- `itertools::EitherOrBoth`: the outcome of a full outer join step. -/
inductive EitherOrBoth (α β : Type) : Type where
  | left : α → EitherOrBoth α β
  | right : β → EitherOrBoth α β
  | both : α → β → EitherOrBoth α β
deriving DecidableEq, Repr

/-- `itertools::merge_join_by`, specialised to a comparison given by key
projections `kx`, `ky` into a linearly ordered key type (all call sites in
the code compare by the term key this way). On `Less` it emits `left` and
advances the left input, on `Equal` it emits `both` and advances both, on
`Greater` it emits `right` and advances the right input.

The definition is structured as two nested structural recursions (the
outer one walks the left input, the inner loop `go` walks the right input;
`rest` is the join of the remaining left input): this is the classic
two-pointer loop, and the recurrence lemmas `mergeJoinBy_nil_left`,
`mergeJoinBy_nil_right` and `mergeJoinBy_cons_cons` below state the
textbook step equations it satisfies. -/
def mergeJoinBy.go {α β K : Type} [LinearOrder K] (kx : α → K) (ky : β → K)
    (x : α) (rest : List β → List (EitherOrBoth α β)) :
    List β → List (EitherOrBoth α β)
  | [] => .left x :: rest []
  | y :: ys =>
    match cmpK (kx x) (ky y) with
    | .lt => .left x :: rest (y :: ys)
    | .eq => .both x y :: rest ys
    | .gt => .right y :: mergeJoinBy.go kx ky x rest ys

def mergeJoinBy {α β K : Type} [LinearOrder K] (kx : α → K) (ky : β → K) :
    List α → List β → List (EitherOrBoth α β)
  | [], ys => ys.map .right
  | x :: xs, ys => mergeJoinBy.go kx ky x (mergeJoinBy kx ky xs) ys

/-- The key of a join outcome (for `both` the two keys agree by
construction, so we read the left one). -/
def keyOf {α β K : Type} (kx : α → K) (ky : β → K) : EitherOrBoth α β → K
  | .left x => kx x
  | .right y => ky y
  | .both x _ => kx x

/-- `Vec::sort_unstable_by(cmp_by_term)`: sort a snapshot by its key.
Modelled with insertion sort; on unique keys every comparison sort agrees. -/
def sortBy {α K : Type} [LinearOrder K] (key : α → K) (l : List α) : List α :=
  l.insertionSort (fun a b => key a ≤ key b)

/-- `traduora::api::TermId`, an opaque string handle of a remote term. -/
abbrev TermId : Type := String

/-- `loader::data::Modification`. -/
inductive Modification : Type where
  | Removed : TermId → Modification
  | Updated : TermId → Modification
  | Added : Modification
deriving DecidableEq, Repr

/-- `Modification::Removed(_)` discriminator. -/
def Modification.isRemoved : Modification → Bool
  | .Removed _ => true
  | _ => false

/-- `loader::local::Translation` (also the shape of a git/baseline record):
a record of the local translation file. The term key is abstract. -/
structure LocalTranslation (K : Type) : Type where
  term : K
  translation : String
deriving DecidableEq, Repr

/-- `loader::remote::Translation`: a record of the remote snapshot. -/
structure RemoteTranslation (K : Type) : Type where
  term_id : TermId
  term : K
  translation : String
deriving DecidableEq, Repr

/-- `loader::data::Translation`: one output action of the engine. -/
structure Translation (K : Type) : Type where
  term : K
  translation : String
  modification : Modification
deriving DecidableEq, Repr

/-- `Translation::added`. -/
def Translation.added {K : Type} (term : K) (translation : String) :
    Translation K :=
  ⟨term, translation, .Added⟩

/-- `Translation::removed`. -/
def Translation.removed {K : Type} (term : K) (translation : String)
    (term_id : TermId) : Translation K :=
  ⟨term, translation, .Removed term_id⟩

/-- `Translation::updated`. -/
def Translation.updated {K : Type} (term : K) (translation : String)
    (term_id : TermId) : Translation K :=
  ⟨term, translation, .Updated term_id⟩

/-- The first `filter_map` closure of `merge` (two-way merge of local
against remote, `data.rs` lines 55–64). -/
def twoWayStep {K : Type} :
    EitherOrBoth (LocalTranslation K) (RemoteTranslation K) →
      Option (Translation K)
  | .both l r =>
    if l.translation ≠ r.translation ∧ l.translation ≠ "" then
      some (Translation.updated l.term l.translation r.term_id)
    else none
  | .left l => some (Translation.added l.term l.translation)
  | .right r => some (Translation.removed r.term r.translation r.term_id)

/-- The second `filter_map` closure of `merge` (three-way refinement
against the git baseline, `data.rs` lines 66–87). The side conditions are
written in the order of the Rust `match` arms. -/
def threeWayStep {K : Type} :
    EitherOrBoth (Translation K) (LocalTranslation K) →
      Option (Translation K)
  | .left t =>
    match t.modification with
    | .Removed _ => none
    | _ => some t
  | .right _ => none
  | .both t g =>
    match t.modification with
    | .Removed _ => some t
    | .Added => none
    | .Updated _ => if t.translation ≠ g.translation then some t else none

/-- `loader::data::merge`: sort the three snapshots by term, two-way
merge-join local with remote, then merge-join the tentative actions with
the git baseline. -/
def merge {K : Type} [LinearOrder K] (first : List (LocalTranslation K))
    (remote : List (RemoteTranslation K)) (git : List (LocalTranslation K)) :
    List (Translation K) :=
  let localS := sortBy LocalTranslation.term first
  let remoteS := sortBy RemoteTranslation.term remote
  let gitS := sortBy LocalTranslation.term git
  let tentative :=
    (mergeJoinBy LocalTranslation.term RemoteTranslation.term localS
        remoteS).filterMap twoWayStep
  (mergeJoinBy Translation.term LocalTranslation.term tentative
      gitS).filterMap threeWayStep

/-- The first stage of `merge` in isolation (Two-Way Merge of the spec). -/
def twoWay {K : Type} [LinearOrder K] (first : List (LocalTranslation K))
    (remote : List (RemoteTranslation K)) : List (Translation K) :=
  (mergeJoinBy LocalTranslation.term RemoteTranslation.term
      (sortBy LocalTranslation.term first)
      (sortBy RemoteTranslation.term remote)).filterMap twoWayStep

/-- The second stage of `merge` in isolation (Three-Way Refinement of the
spec), taking an already merged tentative sequence. -/
def refine {K : Type} [LinearOrder K] (tentative : List (Translation K))
    (git : List (LocalTranslation K)) : List (Translation K) :=
  (mergeJoinBy Translation.term LocalTranslation.term tentative
      (sortBy LocalTranslation.term git)).filterMap threeWayStep

/-- `traduora::api::terms::Term` as used by `remote.rs`: remote id plus
the term key (`value`). -/
structure Term (K : Type) : Type where
  id : TermId
  value : K
deriving DecidableEq, Repr

/-- A remote translation record as returned by the translations query:
the id of the term it belongs to and the translated text. -/
structure ApiTranslation : Type where
  term_id : TermId
  value : String
deriving DecidableEq, Repr

/-- The pure tail of `loader::remote::fetch_from_traduora`: the two query
results are inputs (the HTTP fetch itself is external I/O). Terms are
sorted by id, translations by owning term id, and the two lists are
merge-joined by id: a term with a translation yields that text, a term
without one yields the empty string, a translation without a term is
dropped. -/
def fetchFromTraduora {K : Type} (terms : List (Term K))
    (translations : List ApiTranslation) : List (RemoteTranslation K) :=
  let termsS := sortBy Term.id terms
  let translationsS := sortBy ApiTranslation.term_id translations
  (mergeJoinBy Term.id ApiTranslation.term_id termsS
      translationsS).filterMap fun e =>
    match e with
    | .both term translation =>
      some ⟨term.id, term.value, translation.value⟩
    | .left term => some ⟨term.id, term.value, ""⟩
    | .right _ => none

namespace Updater

/-- `updater::Error`. The term key type `K` and the opaque
`anyhow::Error` type `E` are parameters; an `Update` error carries, per
failed action, the term, the translation text and the cause. -/
inductive Error (K E : Type) : Type where
  | ClientCreation : E → Error K E
  | Update : List (K × String × E) → Error K E

/-- The per-action body of the `filter_map` inside `updater::run`
(`updater.rs` lines 103–113): dispatch on the modification, perform the
corresponding remote call, and turn a failure into the collected error
triple. The remote calls `remove`/`update`/`add` are oracle functions
mirroring the signatures of the Rust helpers (`update` reports the
translation value it tried to set, `add` reports term and translation
itself). -/
def applyAction {K C E : Type} (removeFn : TermId → C → Except E Unit)
    (updateFn : TermId → String → C → Except (String × E) Unit)
    (addFn : K → String → C → Except (K × String × E) Unit)
    (client : C) (t : Translation K) : Option (K × String × E) :=
  match t.modification with
  | .Removed term_id =>
    match removeFn term_id client with
    | .ok _ => none
    | .error e => some (t.term, t.translation, e)
  | .Updated term_id =>
    match updateFn term_id t.translation client with
    | .ok _ => none
    | .error (tl, e) => some (t.term, tl, e)
  | .Added =>
    match addFn t.term t.translation client with
    | .ok _ => none
    | .error e => some e

/-- `updater::run`: create the client (failure aborts with
`ClientCreation`), then attempt every action, collecting one error triple
per failed action, and succeed exactly when no action failed. The
`progress` callback of the Rust code only drives the UI and returns no
data, so it is not modelled. -/
def run {K C E : Type} (createClient : Except E C)
    (removeFn : TermId → C → Except E Unit)
    (updateFn : TermId → String → C → Except (String × E) Unit)
    (addFn : K → String → C → Except (K × String × E) Unit)
    (translations : List (Translation K)) : Except (Error K E) Unit :=
  match createClient with
  | .error e => .error (.ClientCreation e)
  | .ok client =>
    let errors := translations.filterMap
      (applyAction removeFn updateFn addFn client)
    if errors.isEmpty then .ok () else .error (.Update errors)

end Updater

/-- The per-action keep condition that `threeWayStep` enforces relative to
the unsorted baseline `git`: a `Removed` action needs its key in the
baseline, an `Added` action needs its key absent, and an `Updated` action
needs its text to differ from the baseline text whenever its key is
present. -/
def keepCond {K : Type} (git : List (LocalTranslation K))
    (a : Translation K) : Prop :=
  match a.modification with
  | .Removed _ => ∃ q ∈ git, q.term = a.term
  | .Added => ∀ q ∈ git, q.term ≠ a.term
  | .Updated _ => ∀ q ∈ git, q.term = a.term → a.translation ≠ q.translation

/-! ## General properties of sorting and the merge join -/

theorem cmpK_eq_lt {K : Type} [LinearOrder K] {a b : K} :
    cmpK a b = .lt ↔ a < b := by
  unfold cmpK; split
  · simp_all
  · split <;> simp_all

theorem cmpK_eq_eq {K : Type} [LinearOrder K] {a b : K} :
    cmpK a b = .eq ↔ a = b := by
  unfold cmpK; split
  · constructor
    · intro h; cases h
    · intro h; subst h; simp_all
  · split <;> simp_all

theorem cmpK_eq_gt {K : Type} [LinearOrder K] {a b : K} :
    cmpK a b = .gt ↔ b < a := by
  unfold cmpK; split
  · constructor
    · intro h; cases h
    · intro h; exact absurd (lt_trans ‹a < b› h) (lt_irrefl a)
  · split
    · simp_all
    · simp only [true_iff]
      exact lt_of_le_of_ne (le_of_not_lt ‹¬a < b›) (Ne.symm ‹¬a = b›)

theorem mergeJoinBy_nil_left {α β K : Type} [LinearOrder K] (kx : α → K)
    (ky : β → K) (ys : List β) :
    mergeJoinBy kx ky [] ys = ys.map .right := rfl

theorem mergeJoinBy_nil_right {α β K : Type} [LinearOrder K] (kx : α → K)
    (ky : β → K) (xs : List α) :
    mergeJoinBy kx ky xs [] = xs.map .left := by
  induction xs with
  | nil => rfl
  | cons x xs ih => simp [mergeJoinBy, mergeJoinBy.go, ih]

theorem mergeJoinBy_cons_cons {α β K : Type} [LinearOrder K] (kx : α → K)
    (ky : β → K) (x : α) (xs : List α) (y : β) (ys : List β) :
    mergeJoinBy kx ky (x :: xs) (y :: ys) =
      match cmpK (kx x) (ky y) with
      | .lt => .left x :: mergeJoinBy kx ky xs (y :: ys)
      | .eq => .both x y :: mergeJoinBy kx ky xs ys
      | .gt => .right y :: mergeJoinBy kx ky (x :: xs) ys := by
  cases h : cmpK (kx x) (ky y) <;> simp [mergeJoinBy, mergeJoinBy.go, h]

theorem merge_eq_refine_twoWay {K : Type} [LinearOrder K]
    (first : List (LocalTranslation K)) (remote : List (RemoteTranslation K))
    (git : List (LocalTranslation K)) :
    merge first remote git = refine (twoWay first remote) git := rfl

theorem sortBy_perm {α K : Type} [LinearOrder K] (key : α → K) (l : List α) :
    List.Perm (sortBy key l) l :=
  List.perm_insertionSort _ l

theorem mem_sortBy {α K : Type} [LinearOrder K] {key : α → K} {l : List α}
    {x : α} : x ∈ sortBy key l ↔ x ∈ l :=
  (sortBy_perm key l).mem_iff

theorem sortBy_sorted_le {α K : Type} [LinearOrder K] (key : α → K)
    (l : List α) : (sortBy key l).Pairwise (fun a b => key a ≤ key b) := by
  haveI : IsTotal α (fun a b => key a ≤ key b) :=
    ⟨fun a b => le_total (key a) (key b)⟩
  haveI : IsTrans α (fun a b => key a ≤ key b) :=
    ⟨fun _ _ _ hab hbc => le_trans hab hbc⟩
  exact List.sorted_insertionSort _ l

theorem sortBy_pairwise_lt {α K : Type} [LinearOrder K] (key : α → K)
    {l : List α} (hu : l.Pairwise fun a b => key a ≠ key b) :
    (sortBy key l).Pairwise (fun a b => key a < key b) := by
  have hne : (sortBy key l).Pairwise (fun a b => key a ≠ key b) :=
    ((sortBy_perm key l).pairwise_iff fun h => Ne.symm h).mpr hu
  exact ((sortBy_sorted_le key l).and hne).imp fun h =>
    lt_of_le_of_ne h.1 h.2

theorem pairwise_ne_of_pairwise_lt {α K : Type} [LinearOrder K]
    {key : α → K} {l : List α}
    (h : l.Pairwise fun a b => key a < key b) :
    l.Pairwise fun a b => key a ≠ key b :=
  h.imp fun hab => ne_of_lt hab

theorem sortBy_eq_of_perm {α K : Type} [LinearOrder K] (key : α → K)
    {l₁ l₂ : List α} (hp : List.Perm l₁ l₂)
    (hu : l₁.Pairwise fun a b => key a ≠ key b) :
    sortBy key l₁ = sortBy key l₂ := by
  haveI : IsAntisymm α (fun a b => key a < key b) :=
    ⟨fun _ _ h1 h2 => absurd (lt_trans h1 h2) (lt_irrefl _)⟩
  refine List.eq_of_perm_of_sorted
    ((sortBy_perm key l₁).trans (hp.trans (sortBy_perm key l₂).symm))
    (sortBy_pairwise_lt key hu)
    (sortBy_pairwise_lt key ((hp.pairwise_iff fun h => Ne.symm h).mp hu))

theorem key_eq_inj_of_pairwise_ne {α K : Type} {key : α → K} {l : List α}
    (h : l.Pairwise fun a b => key a ≠ key b) :
    ∀ x ∈ l, ∀ y ∈ l, key x = key y → x = y := by
  induction l with
  | nil => simp
  | cons a t ih =>
    rcases List.pairwise_cons.mp h with ⟨ha, ht⟩
    intro x hx y hy hxy
    rcases List.mem_cons.mp hx with hx1 | hx2
    · rcases List.mem_cons.mp hy with hy1 | hy2
      · rw [hx1, hy1]
      · subst hx1
        exact absurd hxy (ha y hy2)
    · rcases List.mem_cons.mp hy with hy1 | hy2
      · subst hy1
        exact absurd hxy (Ne.symm (ha x hx2))
      · exact ih ht x hx2 y hy2 hxy

theorem key_head_le_of_pairwise_lt {α K : Type} [LinearOrder K]
    {key : α → K} {y : α} {ys : List α}
    (h : (y :: ys).Pairwise fun a b => key a < key b) :
    ∀ z ∈ y :: ys, key y ≤ key z := by
  intro z hz
  rcases List.mem_cons.mp hz with rfl | hz
  · exact le_refl _
  · exact le_of_lt ((List.pairwise_cons.mp h).1 z hz)

theorem mergeJoinBy_cons_lt {α β K : Type} [LinearOrder K] {kx : α → K}
    {ky : β → K} {x : α} {xs : List α} {y : β} {ys : List β}
    (h : cmpK (kx x) (ky y) = .lt) :
    mergeJoinBy kx ky (x :: xs) (y :: ys) =
      .left x :: mergeJoinBy kx ky xs (y :: ys) := by
  rw [mergeJoinBy_cons_cons, h]

theorem mergeJoinBy_cons_eq {α β K : Type} [LinearOrder K] {kx : α → K}
    {ky : β → K} {x : α} {xs : List α} {y : β} {ys : List β}
    (h : cmpK (kx x) (ky y) = .eq) :
    mergeJoinBy kx ky (x :: xs) (y :: ys) =
      .both x y :: mergeJoinBy kx ky xs ys := by
  rw [mergeJoinBy_cons_cons, h]

theorem mergeJoinBy_cons_gt {α β K : Type} [LinearOrder K] {kx : α → K}
    {ky : β → K} {x : α} {xs : List α} {y : β} {ys : List β}
    (h : cmpK (kx x) (ky y) = .gt) :
    mergeJoinBy kx ky (x :: xs) (y :: ys) =
      .right y :: mergeJoinBy kx ky (x :: xs) ys := by
  rw [mergeJoinBy_cons_cons, h]

theorem left_origin_mergeJoinBy {α β K : Type} [LinearOrder K] {kx : α → K}
    {ky : β → K} {xs : List α} {ys : List β} {a : α}
    (h : .left a ∈ mergeJoinBy kx ky xs ys) : a ∈ xs := by
  induction xs generalizing ys with
  | nil =>
    rw [mergeJoinBy_nil_left] at h
    simp [List.mem_map] at h
  | cons x xs ihx =>
    induction ys with
    | nil =>
      rw [mergeJoinBy_nil_right] at h
      simp only [List.mem_map] at h
      obtain ⟨b, hb, hba⟩ := h
      cases hba
      exact hb
    | cons y ys ihy =>
      cases hcmp : cmpK (kx x) (ky y) with
      | lt =>
        rw [mergeJoinBy_cons_lt hcmp] at h
        rcases List.mem_cons.mp h with heq | hmem
        · cases heq; exact List.mem_cons_self a xs
        · exact List.mem_cons_of_mem x (ihx hmem)
      | eq =>
        rw [mergeJoinBy_cons_eq hcmp] at h
        rcases List.mem_cons.mp h with heq | hmem
        · cases heq
        · exact List.mem_cons_of_mem x (ihx hmem)
      | gt =>
        rw [mergeJoinBy_cons_gt hcmp] at h
        rcases List.mem_cons.mp h with heq | hmem
        · cases heq
        · exact ihy hmem

theorem right_origin_mergeJoinBy {α β K : Type} [LinearOrder K] {kx : α → K}
    {ky : β → K} {xs : List α} {ys : List β} {b : β}
    (h : .right b ∈ mergeJoinBy kx ky xs ys) : b ∈ ys := by
  induction xs generalizing ys with
  | nil =>
    rw [mergeJoinBy_nil_left] at h
    simp only [List.mem_map] at h
    obtain ⟨c, hc, hcb⟩ := h
    cases hcb
    exact hc
  | cons x xs ihx =>
    induction ys with
    | nil =>
      rw [mergeJoinBy_nil_right] at h
      simp [List.mem_map] at h
    | cons y ys ihy =>
      cases hcmp : cmpK (kx x) (ky y) with
      | lt =>
        rw [mergeJoinBy_cons_lt hcmp] at h
        rcases List.mem_cons.mp h with heq | hmem
        · cases heq
        · exact ihx hmem
      | eq =>
        rw [mergeJoinBy_cons_eq hcmp] at h
        rcases List.mem_cons.mp h with heq | hmem
        · cases heq
        · exact List.mem_cons_of_mem y (ihx hmem)
      | gt =>
        rw [mergeJoinBy_cons_gt hcmp] at h
        rcases List.mem_cons.mp h with heq | hmem
        · cases heq; exact List.mem_cons_self b ys
        · exact List.mem_cons_of_mem y (ihy hmem)

theorem both_origin_mergeJoinBy {α β K : Type} [LinearOrder K] {kx : α → K}
    {ky : β → K} {xs : List α} {ys : List β} {a : α} {b : β}
    (h : .both a b ∈ mergeJoinBy kx ky xs ys) :
    a ∈ xs ∧ b ∈ ys ∧ kx a = ky b := by
  induction xs generalizing ys with
  | nil =>
    rw [mergeJoinBy_nil_left] at h
    simp [List.mem_map] at h
  | cons x xs ihx =>
    induction ys with
    | nil =>
      rw [mergeJoinBy_nil_right] at h
      simp [List.mem_map] at h
    | cons y ys ihy =>
      cases hcmp : cmpK (kx x) (ky y) with
      | lt =>
        rw [mergeJoinBy_cons_lt hcmp] at h
        rcases List.mem_cons.mp h with heq | hmem
        · cases heq
        · obtain ⟨h1, h2, h3⟩ := ihx hmem
          exact ⟨List.mem_cons_of_mem x h1, h2, h3⟩
      | eq =>
        rw [mergeJoinBy_cons_eq hcmp] at h
        rcases List.mem_cons.mp h with heq | hmem
        · cases heq
          exact ⟨List.mem_cons_self a xs, List.mem_cons_self b ys,
            cmpK_eq_eq.mp hcmp⟩
        · obtain ⟨h1, h2, h3⟩ := ihx hmem
          exact ⟨List.mem_cons_of_mem x h1, List.mem_cons_of_mem y h2, h3⟩
      | gt =>
        rw [mergeJoinBy_cons_gt hcmp] at h
        rcases List.mem_cons.mp h with heq | hmem
        · cases heq
        · obtain ⟨h1, h2, h3⟩ := ihy hmem
          exact ⟨h1, List.mem_cons_of_mem y h2, h3⟩

theorem left_mem_mergeJoinBy {α β K : Type} [LinearOrder K] {kx : α → K}
    {ky : β → K} {xs : List α} {ys : List β}
    (hx : xs.Pairwise fun a b => kx a < kx b)
    (hy : ys.Pairwise fun a b => ky a < ky b) (a : α) :
    .left a ∈ mergeJoinBy kx ky xs ys ↔
      a ∈ xs ∧ ∀ z ∈ ys, ky z ≠ kx a := by
  induction xs generalizing ys with
  | nil =>
    rw [mergeJoinBy_nil_left]
    simp [List.mem_map]
  | cons x xs ihx =>
    obtain ⟨hxhead, hx'⟩ := List.pairwise_cons.mp hx
    induction ys with
    | nil =>
      rw [mergeJoinBy_nil_right]
      simp [List.mem_map]
    | cons y ys ihy =>
      obtain ⟨hyhead, hy'⟩ := List.pairwise_cons.mp hy
      cases hcmp : cmpK (kx x) (ky y) with
      | lt =>
        have hlt := cmpK_eq_lt.mp hcmp
        rw [mergeJoinBy_cons_lt hcmp, List.mem_cons]
        have ihx' := ihx hx' hy
        constructor
        · rintro (heq | hmem)
          · cases heq
            refine ⟨List.mem_cons_self a xs, fun z hz => ?_⟩
            exact Ne.symm (ne_of_lt
              (lt_of_lt_of_le hlt (key_head_le_of_pairwise_lt hy z hz)))
          · obtain ⟨h1, h2⟩ := ihx'.mp hmem
            exact ⟨List.mem_cons_of_mem x h1, h2⟩
        · rintro ⟨hmem, hall⟩
          rcases List.mem_cons.mp hmem with rfl | hmem'
          · exact Or.inl rfl
          · exact Or.inr (ihx'.mpr ⟨hmem', hall⟩)
      | eq =>
        have heq := cmpK_eq_eq.mp hcmp
        rw [mergeJoinBy_cons_eq hcmp, List.mem_cons]
        have ihx' := ihx hx' hy'
        constructor
        · rintro (habs | hmem)
          · cases habs
          · obtain ⟨h1, h2⟩ := ihx'.mp hmem
            refine ⟨List.mem_cons_of_mem x h1, fun z hz => ?_⟩
            rcases List.mem_cons.mp hz with rfl | hz'
            · rw [← heq]
              exact ne_of_lt (hxhead a h1)
            · exact h2 z hz'
        · rintro ⟨hmem, hall⟩
          rcases List.mem_cons.mp hmem with rfl | hmem'
          · exact absurd heq.symm (hall y (List.mem_cons_self y ys))
          · exact Or.inr (ihx'.mpr
              ⟨hmem', fun z hz => hall z (List.mem_cons_of_mem y hz)⟩)
      | gt =>
        have hgt := cmpK_eq_gt.mp hcmp
        rw [mergeJoinBy_cons_gt hcmp, List.mem_cons]
        have ihy' := ihy hy'
        constructor
        · rintro (habs | hmem)
          · cases habs
          · obtain ⟨h1, h2⟩ := ihy'.mp hmem
            refine ⟨h1, fun z hz => ?_⟩
            rcases List.mem_cons.mp hz with rfl | hz'
            · exact ne_of_lt
                (lt_of_lt_of_le hgt (key_head_le_of_pairwise_lt hx a h1))
            · exact h2 z hz'
        · rintro ⟨hmem, hall⟩
          exact Or.inr (ihy'.mpr
            ⟨hmem, fun z hz => hall z (List.mem_cons_of_mem y hz)⟩)

theorem right_mem_mergeJoinBy {α β K : Type} [LinearOrder K] {kx : α → K}
    {ky : β → K} {xs : List α} {ys : List β}
    (hx : xs.Pairwise fun a b => kx a < kx b)
    (hy : ys.Pairwise fun a b => ky a < ky b) (b : β) :
    .right b ∈ mergeJoinBy kx ky xs ys ↔
      b ∈ ys ∧ ∀ z ∈ xs, kx z ≠ ky b := by
  induction xs generalizing ys with
  | nil =>
    rw [mergeJoinBy_nil_left]
    simp [List.mem_map]
  | cons x xs ihx =>
    obtain ⟨hxhead, hx'⟩ := List.pairwise_cons.mp hx
    induction ys with
    | nil =>
      rw [mergeJoinBy_nil_right]
      simp [List.mem_map]
    | cons y ys ihy =>
      obtain ⟨hyhead, hy'⟩ := List.pairwise_cons.mp hy
      cases hcmp : cmpK (kx x) (ky y) with
      | lt =>
        have hlt := cmpK_eq_lt.mp hcmp
        rw [mergeJoinBy_cons_lt hcmp, List.mem_cons]
        have ihx' := ihx hx' hy
        constructor
        · rintro (habs | hmem)
          · cases habs
          · obtain ⟨h1, h2⟩ := ihx'.mp hmem
            refine ⟨h1, fun z hz => ?_⟩
            rcases List.mem_cons.mp hz with rfl | hz'
            · exact ne_of_lt
                (lt_of_lt_of_le hlt (key_head_le_of_pairwise_lt hy b h1))
            · exact h2 z hz'
        · rintro ⟨hmem, hall⟩
          exact Or.inr (ihx'.mpr
            ⟨hmem, fun z hz => hall z (List.mem_cons_of_mem x hz)⟩)
      | eq =>
        have heq := cmpK_eq_eq.mp hcmp
        rw [mergeJoinBy_cons_eq hcmp, List.mem_cons]
        have ihx' := ihx hx' hy'
        constructor
        · rintro (habs | hmem)
          · cases habs
          · obtain ⟨h1, h2⟩ := ihx'.mp hmem
            refine ⟨List.mem_cons_of_mem y h1, fun z hz => ?_⟩
            rcases List.mem_cons.mp hz with rfl | hz'
            · rw [heq]
              exact ne_of_lt (hyhead b h1)
            · exact h2 z hz'
        · rintro ⟨hmem, hall⟩
          rcases List.mem_cons.mp hmem with rfl | hmem'
          · exact absurd heq (hall x (List.mem_cons_self x xs))
          · exact Or.inr (ihx'.mpr
              ⟨hmem', fun z hz => hall z (List.mem_cons_of_mem x hz)⟩)
      | gt =>
        have hgt := cmpK_eq_gt.mp hcmp
        rw [mergeJoinBy_cons_gt hcmp, List.mem_cons]
        have ihy' := ihy hy'
        constructor
        · rintro (heq | hmem)
          · cases heq
            refine ⟨List.mem_cons_self b ys, fun z hz => ?_⟩
            exact Ne.symm (ne_of_lt
              (lt_of_lt_of_le hgt (key_head_le_of_pairwise_lt hx z hz)))
          · obtain ⟨h1, h2⟩ := ihy'.mp hmem
            exact ⟨List.mem_cons_of_mem y h1, h2⟩
        · rintro ⟨hmem, hall⟩
          rcases List.mem_cons.mp hmem with rfl | hmem'
          · exact Or.inl rfl
          · exact Or.inr (ihy'.mpr ⟨hmem', hall⟩)

theorem both_mem_mergeJoinBy {α β K : Type} [LinearOrder K] {kx : α → K}
    {ky : β → K} {xs : List α} {ys : List β}
    (hx : xs.Pairwise fun a b => kx a < kx b)
    (hy : ys.Pairwise fun a b => ky a < ky b) (a : α) (b : β) :
    .both a b ∈ mergeJoinBy kx ky xs ys ↔
      a ∈ xs ∧ b ∈ ys ∧ kx a = ky b := by
  induction xs generalizing ys with
  | nil =>
    rw [mergeJoinBy_nil_left]
    simp [List.mem_map]
  | cons x xs ihx =>
    obtain ⟨hxhead, hx'⟩ := List.pairwise_cons.mp hx
    induction ys with
    | nil =>
      rw [mergeJoinBy_nil_right]
      simp [List.mem_map]
    | cons y ys ihy =>
      obtain ⟨hyhead, hy'⟩ := List.pairwise_cons.mp hy
      cases hcmp : cmpK (kx x) (ky y) with
      | lt =>
        have hlt := cmpK_eq_lt.mp hcmp
        rw [mergeJoinBy_cons_lt hcmp, List.mem_cons]
        have ihx' := ihx hx' hy
        constructor
        · rintro (habs | hmem)
          · cases habs
          · obtain ⟨h1, h2, h3⟩ := ihx'.mp hmem
            exact ⟨List.mem_cons_of_mem x h1, h2, h3⟩
        · rintro ⟨ha, hb, hk⟩
          rcases List.mem_cons.mp ha with rfl | ha'
          · exact absurd hk (ne_of_lt
              (lt_of_lt_of_le hlt (key_head_le_of_pairwise_lt hy b hb)))
          · exact Or.inr (ihx'.mpr ⟨ha', hb, hk⟩)
      | eq =>
        have heq := cmpK_eq_eq.mp hcmp
        rw [mergeJoinBy_cons_eq hcmp, List.mem_cons]
        have ihx' := ihx hx' hy'
        constructor
        · rintro (heqc | hmem)
          · cases heqc
            exact ⟨List.mem_cons_self a xs, List.mem_cons_self b ys, heq⟩
          · obtain ⟨h1, h2, h3⟩ := ihx'.mp hmem
            exact ⟨List.mem_cons_of_mem x h1, List.mem_cons_of_mem y h2, h3⟩
        · rintro ⟨ha, hb, hk⟩
          rcases List.mem_cons.mp ha with rfl | ha'
          · rcases List.mem_cons.mp hb with rfl | hb'
            · exact Or.inl rfl
            · rw [heq] at hk
              exact absurd hk (ne_of_lt (hyhead b hb'))
          · rcases List.mem_cons.mp hb with rfl | hb'
            · rw [← heq] at hk
              exact absurd hk.symm (ne_of_lt (hxhead a ha'))
            · exact Or.inr (ihx'.mpr ⟨ha', hb', hk⟩)
      | gt =>
        have hgt := cmpK_eq_gt.mp hcmp
        rw [mergeJoinBy_cons_gt hcmp, List.mem_cons]
        have ihy' := ihy hy'
        constructor
        · rintro (habs | hmem)
          · cases habs
          · obtain ⟨h1, h2, h3⟩ := ihy'.mp hmem
            exact ⟨h1, List.mem_cons_of_mem y h2, h3⟩
        · rintro ⟨ha, hb, hk⟩
          rcases List.mem_cons.mp hb with rfl | hb'
          · exact absurd hk.symm (ne_of_lt
              (lt_of_lt_of_le hgt (key_head_le_of_pairwise_lt hx a ha)))
          · exact Or.inr (ihy'.mpr ⟨ha, hb', hk⟩)

theorem keyOf_origin_mergeJoinBy {α β K : Type} [LinearOrder K] {kx : α → K}
    {ky : β → K} {xs : List α} {ys : List β} {e : EitherOrBoth α β}
    (h : e ∈ mergeJoinBy kx ky xs ys) :
    (∃ u ∈ xs, keyOf kx ky e = kx u) ∨ (∃ v ∈ ys, keyOf kx ky e = ky v) := by
  cases e with
  | left a => exact Or.inl ⟨a, left_origin_mergeJoinBy h, rfl⟩
  | right b => exact Or.inr ⟨b, right_origin_mergeJoinBy h, rfl⟩
  | both a b => exact Or.inl ⟨a, (both_origin_mergeJoinBy h).1, rfl⟩

theorem pairwise_keyOf_mergeJoinBy {α β K : Type} [LinearOrder K]
    {kx : α → K} {ky : β → K} {xs : List α} {ys : List β}
    (hx : xs.Pairwise fun a b => kx a < kx b)
    (hy : ys.Pairwise fun a b => ky a < ky b) :
    (mergeJoinBy kx ky xs ys).Pairwise
      (fun e f => keyOf kx ky e < keyOf kx ky f) := by
  induction xs generalizing ys with
  | nil =>
    rw [mergeJoinBy_nil_left, List.pairwise_map]
    exact hy.imp fun h => h
  | cons x xs ihx =>
    obtain ⟨hxhead, hx'⟩ := List.pairwise_cons.mp hx
    induction ys with
    | nil =>
      rw [mergeJoinBy_nil_right, List.pairwise_map]
      exact hx.imp fun h => h
    | cons y ys ihy =>
      obtain ⟨hyhead, hy'⟩ := List.pairwise_cons.mp hy
      cases hcmp : cmpK (kx x) (ky y) with
      | lt =>
        have hlt := cmpK_eq_lt.mp hcmp
        rw [mergeJoinBy_cons_lt hcmp, List.pairwise_cons]
        refine ⟨fun f hf => ?_, ihx hx' hy⟩
        rcases keyOf_origin_mergeJoinBy hf with ⟨u, hu, hku⟩ | ⟨v, hv, hkv⟩
        · rw [hku]; exact hxhead u hu
        · rw [hkv]
          exact lt_of_lt_of_le hlt (key_head_le_of_pairwise_lt hy v hv)
      | eq =>
        have heq := cmpK_eq_eq.mp hcmp
        rw [mergeJoinBy_cons_eq hcmp, List.pairwise_cons]
        refine ⟨fun f hf => ?_, ihx hx' hy'⟩
        rcases keyOf_origin_mergeJoinBy hf with ⟨u, hu, hku⟩ | ⟨v, hv, hkv⟩
        · rw [hku]; exact hxhead u hu
        · rw [hkv]
          show kx x < ky v
          rw [heq]
          exact hyhead v hv
      | gt =>
        have hgt := cmpK_eq_gt.mp hcmp
        rw [mergeJoinBy_cons_gt hcmp, List.pairwise_cons]
        refine ⟨fun f hf => ?_, ihy hy'⟩
        rcases keyOf_origin_mergeJoinBy hf with ⟨u, hu, hku⟩ | ⟨v, hv, hkv⟩
        · rw [hku]
          exact lt_of_lt_of_le hgt (key_head_le_of_pairwise_lt hx u hu)
        · rw [hkv]; exact hyhead v hv

theorem pairwise_filterMap_keyed {α β K : Type} [LinearOrder K]
    (f : α → Option β) (ka : α → K) (kb : β → K)
    (hkey : ∀ a b, f a = some b → kb b = ka a) {l : List α}
    (h : l.Pairwise fun a a2 => ka a < ka a2) :
    (l.filterMap f).Pairwise fun b b2 => kb b < kb b2 := by
  refine List.Pairwise.filterMap f (fun a a2 hlt b hb b2 hb2 => ?_) h
  rw [Option.mem_def] at hb hb2
  rw [hkey a b hb, hkey a2 b2 hb2]
  exact hlt

theorem twoWayStep_term {K : Type} [LinearOrder K]
    (e : EitherOrBoth (LocalTranslation K) (RemoteTranslation K))
    (a : Translation K) (h : twoWayStep e = some a) :
    a.term = keyOf LocalTranslation.term RemoteTranslation.term e := by
  cases e with
  | left p =>
    simp only [twoWayStep, Option.some.injEq] at h
    rw [← h]; rfl
  | right q =>
    simp only [twoWayStep, Option.some.injEq] at h
    rw [← h]; rfl
  | both p q =>
    simp only [twoWayStep] at h
    split at h
    · simp only [Option.some.injEq] at h
      rw [← h]; rfl
    · cases h

theorem threeWayStep_term {K : Type} [LinearOrder K]
    (e : EitherOrBoth (Translation K) (LocalTranslation K))
    (a : Translation K) (h : threeWayStep e = some a) :
    a.term = keyOf Translation.term LocalTranslation.term e := by
  cases e with
  | left t =>
    cases hmod : t.modification with
    | Removed id2 => simp [threeWayStep, hmod] at h
    | Updated id2 =>
      simp only [threeWayStep, hmod, Option.some.injEq] at h
      rw [← h]; rfl
    | Added =>
      simp only [threeWayStep, hmod, Option.some.injEq] at h
      rw [← h]; rfl
  | right q => simp [threeWayStep] at h
  | both t q =>
    cases hmod : t.modification with
    | Removed id2 =>
      simp only [threeWayStep, hmod, Option.some.injEq] at h
      rw [← h]; rfl
    | Added => simp [threeWayStep, hmod] at h
    | Updated id2 =>
      simp only [threeWayStep, hmod] at h
      split at h
      · simp only [Option.some.injEq] at h
        rw [← h]; rfl
      · cases h

theorem twoWay_pairwise_lt {K : Type} [LinearOrder K]
    {l : List (LocalTranslation K)} {r : List (RemoteTranslation K)}
    (hl : l.Pairwise fun a b => a.term ≠ b.term)
    (hr : r.Pairwise fun a b => a.term ≠ b.term) :
    (twoWay l r).Pairwise fun a b => a.term < b.term := by
  unfold twoWay
  exact pairwise_filterMap_keyed twoWayStep _ Translation.term twoWayStep_term
    (pairwise_keyOf_mergeJoinBy (sortBy_pairwise_lt _ hl)
      (sortBy_pairwise_lt _ hr))

theorem refine_pairwise_lt {K : Type} [LinearOrder K]
    {t : List (Translation K)} {g : List (LocalTranslation K)}
    (ht : t.Pairwise fun a b => a.term < b.term)
    (hg : g.Pairwise fun a b => a.term ≠ b.term) :
    (refine t g).Pairwise fun a b => a.term < b.term := by
  unfold refine
  exact pairwise_filterMap_keyed threeWayStep _ Translation.term
    threeWayStep_term
    (pairwise_keyOf_mergeJoinBy ht (sortBy_pairwise_lt _ hg))

theorem mem_of_mem_refine {K : Type} [LinearOrder K]
    {t : List (Translation K)} {g : List (LocalTranslation K)}
    {a : Translation K} (h : a ∈ refine t g) : a ∈ t := by
  unfold refine at h
  rw [List.mem_filterMap] at h
  obtain ⟨e, he, hstep⟩ := h
  cases e with
  | right q => simp [threeWayStep] at hstep
  | left t2 =>
    have ht2 := left_origin_mergeJoinBy he
    cases hmod : t2.modification with
    | Removed id2 => simp [threeWayStep, hmod] at hstep
    | Added =>
      simp only [threeWayStep, hmod, Option.some.injEq] at hstep
      subst hstep; exact ht2
    | Updated id2 =>
      simp only [threeWayStep, hmod, Option.some.injEq] at hstep
      subst hstep; exact ht2
  | both t2 q =>
    have ht2 := (both_origin_mergeJoinBy he).1
    cases hmod : t2.modification with
    | Removed id2 =>
      simp only [threeWayStep, hmod, Option.some.injEq] at hstep
      subst hstep; exact ht2
    | Added => simp [threeWayStep, hmod] at hstep
    | Updated id2 =>
      simp only [threeWayStep, hmod] at hstep
      split at hstep
      · simp only [Option.some.injEq] at hstep
        subst hstep; exact ht2
      · cases hstep

theorem mem_twoWay_iff {K : Type} [LinearOrder K]
    {l : List (LocalTranslation K)} {r : List (RemoteTranslation K)}
    (hl : l.Pairwise fun a b => a.term ≠ b.term)
    (hr : r.Pairwise fun a b => a.term ≠ b.term) {a : Translation K} :
    a ∈ twoWay l r ↔
      (∃ p ∈ l, ∃ q ∈ r, p.term = q.term ∧ p.translation ≠ q.translation ∧
        p.translation ≠ "" ∧
        a = Translation.updated p.term p.translation q.term_id) ∨
      (∃ p ∈ l, (∀ q ∈ r, q.term ≠ p.term) ∧
        a = Translation.added p.term p.translation) ∨
      (∃ q ∈ r, (∀ p ∈ l, p.term ≠ q.term) ∧
        a = Translation.removed q.term q.translation q.term_id) := by
  have hls := sortBy_pairwise_lt LocalTranslation.term hl
  have hrs := sortBy_pairwise_lt RemoteTranslation.term hr
  unfold twoWay
  rw [List.mem_filterMap]
  constructor
  · rintro ⟨e, he, hstep⟩
    cases e with
    | both p q =>
      obtain ⟨hp, hq, hterm⟩ := (both_mem_mergeJoinBy hls hrs p q).mp he
      simp only [twoWayStep] at hstep
      split at hstep
      · simp only [Option.some.injEq] at hstep
        exact Or.inl ⟨p, mem_sortBy.mp hp, q, mem_sortBy.mp hq, hterm,
          ‹p.translation ≠ q.translation ∧ p.translation ≠ ""›.1,
          ‹p.translation ≠ q.translation ∧ p.translation ≠ ""›.2,
          hstep.symm⟩
      · cases hstep
    | left p =>
      obtain ⟨hp, hall⟩ := (left_mem_mergeJoinBy hls hrs p).mp he
      simp only [twoWayStep, Option.some.injEq] at hstep
      exact Or.inr (Or.inl ⟨p, mem_sortBy.mp hp,
        fun q hq => hall q (mem_sortBy.mpr hq), hstep.symm⟩)
    | right q =>
      obtain ⟨hq, hall⟩ := (right_mem_mergeJoinBy hls hrs q).mp he
      simp only [twoWayStep, Option.some.injEq] at hstep
      exact Or.inr (Or.inr ⟨q, mem_sortBy.mp hq,
        fun p hp => hall p (mem_sortBy.mpr hp), hstep.symm⟩)
  · rintro (⟨p, hp, q, hq, hterm, hne, hnemp, rfl⟩ | ⟨p, hp, hall, rfl⟩ |
      ⟨q, hq, hall, rfl⟩)
    · refine ⟨.both p q, (both_mem_mergeJoinBy hls hrs p q).mpr
        ⟨mem_sortBy.mpr hp, mem_sortBy.mpr hq, hterm⟩, ?_⟩
      simp [twoWayStep, hne, hnemp]
    · exact ⟨.left p, (left_mem_mergeJoinBy hls hrs p).mpr
        ⟨mem_sortBy.mpr hp, fun z hz => hall z (mem_sortBy.mp hz)⟩, rfl⟩
    · exact ⟨.right q, (right_mem_mergeJoinBy hls hrs q).mpr
        ⟨mem_sortBy.mpr hq, fun z hz => hall z (mem_sortBy.mp hz)⟩, rfl⟩

theorem mem_refine_iff {K : Type} [LinearOrder K]
    {t : List (Translation K)} {g : List (LocalTranslation K)}
    (ht : t.Pairwise fun a b => a.term < b.term)
    (hg : g.Pairwise fun a b => a.term ≠ b.term) {a : Translation K} :
    a ∈ refine t g ↔ a ∈ t ∧ keepCond g a := by
  have hgs := sortBy_pairwise_lt LocalTranslation.term hg
  unfold refine
  rw [List.mem_filterMap]
  constructor
  · rintro ⟨e, he, hstep⟩
    cases e with
    | right q => simp [threeWayStep] at hstep
    | left t2 =>
      obtain ⟨ht2, hall⟩ := (left_mem_mergeJoinBy ht hgs t2).mp he
      cases hmod : t2.modification with
      | Removed id2 => simp [threeWayStep, hmod] at hstep
      | Added =>
        simp only [threeWayStep, hmod, Option.some.injEq] at hstep
        subst hstep
        refine ⟨ht2, ?_⟩
        simp only [keepCond, hmod]
        exact fun q hq => hall q (mem_sortBy.mpr hq)
      | Updated id2 =>
        simp only [threeWayStep, hmod, Option.some.injEq] at hstep
        subst hstep
        refine ⟨ht2, ?_⟩
        simp only [keepCond, hmod]
        exact fun q hq hq2 => absurd hq2 (hall q (mem_sortBy.mpr hq))
    | both t2 q =>
      obtain ⟨ht2, hq, hterm⟩ := (both_mem_mergeJoinBy ht hgs t2 q).mp he
      cases hmod : t2.modification with
      | Removed id2 =>
        simp only [threeWayStep, hmod, Option.some.injEq] at hstep
        subst hstep
        refine ⟨ht2, ?_⟩
        simp only [keepCond, hmod]
        exact ⟨q, mem_sortBy.mp hq, hterm.symm⟩
      | Added => simp [threeWayStep, hmod] at hstep
      | Updated id2 =>
        simp only [threeWayStep, hmod] at hstep
        split at hstep
        · simp only [Option.some.injEq] at hstep
          subst hstep
          refine ⟨ht2, ?_⟩
          simp only [keepCond, hmod]
          intro q2 hq2 hq2term
          have hqg := mem_sortBy.mp hq
          have : q2 = q := key_eq_inj_of_pairwise_ne hg q2 hq2 q hqg
            (hq2term.trans hterm)
          subst this
          assumption
        · cases hstep
  · rintro ⟨hat, hkeep⟩
    cases hmod : a.modification with
    | Removed id2 =>
      simp only [keepCond, hmod] at hkeep
      obtain ⟨q, hq, hqterm⟩ := hkeep
      refine ⟨.both a q, (both_mem_mergeJoinBy ht hgs a q).mpr
        ⟨hat, mem_sortBy.mpr hq, hqterm.symm⟩, ?_⟩
      simp [threeWayStep, hmod]
    | Added =>
      simp only [keepCond, hmod] at hkeep
      refine ⟨.left a, (left_mem_mergeJoinBy ht hgs a).mpr
        ⟨hat, fun z hz => hkeep z (mem_sortBy.mp hz)⟩, ?_⟩
      simp [threeWayStep, hmod]
    | Updated id2 =>
      simp only [keepCond, hmod] at hkeep
      by_cases hex : ∃ q ∈ g, q.term = a.term
      · obtain ⟨q, hq, hqterm⟩ := hex
        refine ⟨.both a q, (both_mem_mergeJoinBy ht hgs a q).mpr
          ⟨hat, mem_sortBy.mpr hq, hqterm.symm⟩, ?_⟩
        have hne := hkeep q hq hqterm
        simp [threeWayStep, hmod, hne]
      · push_neg at hex
        refine ⟨.left a, (left_mem_mergeJoinBy ht hgs a).mpr
          ⟨hat, fun z hz => hex z (mem_sortBy.mp hz)⟩, ?_⟩
        simp [threeWayStep, hmod]

theorem twoWay_no_action_of_agree {K : Type} [LinearOrder K]
    {l : List (LocalTranslation K)} {r : List (RemoteTranslation K)}
    (hl : l.Pairwise fun a b => a.term ≠ b.term)
    (hr : r.Pairwise fun a b => a.term ≠ b.term)
    {p : LocalTranslation K} {q : RemoteTranslation K}
    (hp : p ∈ l) (hq : q ∈ r) (hterm : p.term = q.term)
    (hagree : p.translation = q.translation ∨ p.translation = "") :
    ∀ a ∈ twoWay l r, a.term ≠ p.term := by
  intro a ha heq
  rcases (mem_twoWay_iff hl hr).mp ha with
    ⟨p2, hp2, q2, hq2, ht2, hne2, hnemp2, rfl⟩ | ⟨p2, hp2, hall, rfl⟩ |
    ⟨q2, hq2, hall, rfl⟩
  · simp only [Translation.updated] at heq
    have hp2p : p2 = p := key_eq_inj_of_pairwise_ne hl p2 hp2 p hp heq
    subst hp2p
    have hq2q : q2 = q := key_eq_inj_of_pairwise_ne hr q2 hq2 q hq
      (ht2.symm.trans (heq.trans hterm))
    subst hq2q
    rcases hagree with hagree | hagree
    · exact hne2 hagree
    · exact hnemp2 hagree
  · simp only [Translation.added] at heq
    exact hall q hq (hterm.symm.trans heq.symm)
  · simp only [Translation.removed] at heq
    have hq2q : q2 = q := key_eq_inj_of_pairwise_ne hr q2 hq2 q hq
      (heq.trans hterm)
    subst hq2q
    exact hall p hp hterm

theorem fetch_origin {K : Type} {terms : List (Term K)}
    {tls : List ApiTranslation} :
    ∀ rt ∈ fetchFromTraduora terms tls,
      ∃ tm ∈ terms, rt.term_id = tm.id ∧ rt.term = tm.value := by
  intro rt hrt
  unfold fetchFromTraduora at hrt
  rw [List.mem_filterMap] at hrt
  obtain ⟨e, he, hstep⟩ := hrt
  cases e with
  | left tm =>
    simp only [Option.some.injEq] at hstep
    refine ⟨tm, mem_sortBy.mp (left_origin_mergeJoinBy he), ?_, ?_⟩ <;>
      rw [← hstep]
  | both tm tl =>
    simp only [Option.some.injEq] at hstep
    refine ⟨tm, mem_sortBy.mp ((both_origin_mergeJoinBy he).1), ?_, ?_⟩ <;>
      rw [← hstep]
  | right tl => cases hstep

theorem mem_fetchFromTraduora_iff {K : Type} {terms : List (Term K)}
    {tls : List ApiTranslation}
    (hterms : terms.Pairwise fun a b => a.id ≠ b.id)
    (htls : tls.Pairwise fun a b => a.term_id ≠ b.term_id)
    {rt : RemoteTranslation K} :
    rt ∈ fetchFromTraduora terms tls ↔
      (∃ tm ∈ terms, ∃ tl ∈ tls, tm.id = tl.term_id ∧
        rt = ⟨tm.id, tm.value, tl.value⟩) ∨
      (∃ tm ∈ terms, (∀ tl ∈ tls, tl.term_id ≠ tm.id) ∧
        rt = ⟨tm.id, tm.value, ""⟩) := by
  have hts := sortBy_pairwise_lt Term.id hterms
  have htls2 := sortBy_pairwise_lt ApiTranslation.term_id htls
  unfold fetchFromTraduora
  rw [List.mem_filterMap]
  constructor
  · rintro ⟨e, he, hstep⟩
    cases e with
    | both tm tl =>
      obtain ⟨htm, htl, hid⟩ := (both_mem_mergeJoinBy hts htls2 tm tl).mp he
      simp only [Option.some.injEq] at hstep
      exact Or.inl ⟨tm, mem_sortBy.mp htm, tl, mem_sortBy.mp htl, hid,
        hstep.symm⟩
    | left tm =>
      obtain ⟨htm, hall⟩ := (left_mem_mergeJoinBy hts htls2 tm).mp he
      simp only [Option.some.injEq] at hstep
      exact Or.inr ⟨tm, mem_sortBy.mp htm,
        fun tl htl => hall tl (mem_sortBy.mpr htl), hstep.symm⟩
    | right tl => cases hstep
  · rintro (⟨tm, htm, tl, htl, hid, rfl⟩ | ⟨tm, htm, hall, rfl⟩)
    · exact ⟨.both tm tl, (both_mem_mergeJoinBy hts htls2 tm tl).mpr
        ⟨mem_sortBy.mpr htm, mem_sortBy.mpr htl, hid⟩, rfl⟩
    · exact ⟨.left tm, (left_mem_mergeJoinBy hts htls2 tm).mpr
        ⟨mem_sortBy.mpr htm, fun z hz => hall z (mem_sortBy.mp hz)⟩, rfl⟩

theorem fetch_pairwise_term_ne {K : Type} {terms : List (Term K)}
    {tls : List ApiTranslation}
    (hids : terms.Pairwise fun a b => a.id ≠ b.id)
    (hvals : terms.Pairwise fun a b => a.value ≠ b.value)
    (htls : tls.Pairwise fun a b => a.term_id ≠ b.term_id) :
    (fetchFromTraduora terms tls).Pairwise fun a b => a.term ≠ b.term := by
  have hidlt : (fetchFromTraduora terms tls).Pairwise
      fun a b => a.term_id < b.term_id := by
    unfold fetchFromTraduora
    refine pairwise_filterMap_keyed _ _ RemoteTranslation.term_id ?_
      (pairwise_keyOf_mergeJoinBy (sortBy_pairwise_lt _ hids)
        (sortBy_pairwise_lt _ htls))
    intro e a h
    cases e with
    | left tm =>
      simp only [Option.some.injEq] at h
      rw [← h]; rfl
    | both tm tl =>
      simp only [Option.some.injEq] at h
      rw [← h]; rfl
    | right tl => cases h
  refine hidlt.imp_of_mem fun {a b} ha hb hlt hvaleq => ?_
  obtain ⟨tma, htma, hida, hva⟩ := fetch_origin a ha
  obtain ⟨tmb, htmb, hidb, hvb⟩ := fetch_origin b hb
  have : tma = tmb := key_eq_inj_of_pairwise_ne hvals tma htma tmb htmb
    ((hva.symm.trans hvaleq).trans hvb)
  have hideq : a.term_id = b.term_id := hida.trans (this ▸ hidb.symm)
  exact absurd hideq (ne_of_lt hlt)

theorem run_ok_iff {K C E : Type} {createClient : Except E C}
    {removeFn : TermId → C → Except E Unit}
    {updateFn : TermId → String → C → Except (String × E) Unit}
    {addFn : K → String → C → Except (K × String × E) Unit}
    {translations : List (Translation K)} {client : C}
    (hc : createClient = .ok client) :
    Updater.run createClient removeFn updateFn addFn translations =
        .ok () ↔
      ∀ t ∈ translations,
        Updater.applyAction removeFn updateFn addFn client t = none := by
  subst hc
  simp only [Updater.run]
  split
  next hEmpty =>
    rw [List.isEmpty_iff] at hEmpty
    constructor
    · intro _
      exact List.filterMap_eq_nil_iff.mp hEmpty
    · intro _; rfl
  next hEmpty =>
    have hne : translations.filterMap
        (Updater.applyAction removeFn updateFn addFn client) ≠ [] :=
      fun hnil => hEmpty (by simp [hnil])
    constructor
    · intro h; simp at h
    · intro hall
      exact absurd (List.filterMap_eq_nil_iff.mpr hall) hne

theorem run_error_iff {K C E : Type} {createClient : Except E C}
    {removeFn : TermId → C → Except E Unit}
    {updateFn : TermId → String → C → Except (String × E) Unit}
    {addFn : K → String → C → Except (K × String × E) Unit}
    {translations : List (Translation K)} {client : C}
    (hc : createClient = .ok client) (errs : List (K × String × E)) :
    Updater.run createClient removeFn updateFn addFn translations =
        .error (.Update errs) ↔
      (errs = translations.filterMap
          (Updater.applyAction removeFn updateFn addFn client) ∧
        errs ≠ []) := by
  subst hc
  simp only [Updater.run]
  split
  next hEmpty =>
    rw [List.isEmpty_iff] at hEmpty
    constructor
    · intro h; simp at h
    · rintro ⟨rfl, hne⟩
      exact absurd hEmpty hne
  next hEmpty =>
    have hne : translations.filterMap
        (Updater.applyAction removeFn updateFn addFn client) ≠ [] :=
      fun hnil => hEmpty (by simp [hnil])
    constructor
    · intro h
      injection h with h2
      injection h2 with h3
      exact ⟨h3.symm, h3 ▸ hne⟩
    · rintro ⟨rfl, _⟩
      rfl

/-! ## Claims -/

/-- Claim C1, counterexample: running Three-Way Refinement with an absent
Baseline (the empty git vector that `load_data` passes when the revision
is empty) does not return the tentative sequence unchanged — a tentative
`Removed` action is dropped by the `Left(Removed) => None` arm, so
`refine(tentative, None) == tentative` fails. -/
theorem C1_bypass_counterexample :
    refine (K := Nat) [Translation.removed 1 "hi" "id1"] [] = [] ∧
    refine (K := Nat) [Translation.removed 1 "hi" "id1"] [] ≠
      [Translation.removed 1 "hi" "id1"] := by decide

/-- Claim C1, amended: refinement with an absent Baseline (empty git
vector) returns the tentative sequence with every tentative `Removed`
action dropped; all `Added` and `Updated` actions survive unchanged. -/
theorem C1_bypass_amended {K : Type} [LinearOrder K]
    (tentative : List (Translation K)) :
    refine tentative [] =
      tentative.filter fun a => !a.modification.isRemoved := by
  unfold refine
  rw [show sortBy LocalTranslation.term ([] : List (LocalTranslation K)) = []
    from rfl, mergeJoinBy_nil_right]
  induction tentative with
  | nil => rfl
  | cons t ts ih =>
    simp only [List.map_cons, List.filterMap_cons, List.filter_cons]
    cases hmod : t.modification with
    | Removed id2 => simp [threeWayStep, hmod, Modification.isRemoved, ih]
    | Added => simp [threeWayStep, hmod, Modification.isRemoved, ih]
    | Updated id2 => simp [threeWayStep, hmod, Modification.isRemoved, ih]

/-- Claim C2: for snapshots with unique keys, the Two-Way Merge output
contains, for each key in both snapshots with differing texts and
non-empty local text, exactly the `Updated` action; for each key only in
Local, exactly the `Added` action; for each key only in Remote, exactly
the `Removed` action; and nothing for a key with equal texts. -/
theorem C2_twoWay_classification {K : Type} [LinearOrder K]
    (l : List (LocalTranslation K)) (r : List (RemoteTranslation K))
    (hl : l.Pairwise fun a b => a.term ≠ b.term)
    (hr : r.Pairwise fun a b => a.term ≠ b.term) :
    (∀ p ∈ l, ∀ q ∈ r, p.term = q.term → p.translation ≠ q.translation →
      p.translation ≠ "" →
      Translation.updated p.term p.translation q.term_id ∈ twoWay l r ∧
      ∀ b ∈ twoWay l r, b.term = p.term →
        b = Translation.updated p.term p.translation q.term_id) ∧
    (∀ p ∈ l, (∀ q ∈ r, q.term ≠ p.term) →
      Translation.added p.term p.translation ∈ twoWay l r ∧
      ∀ b ∈ twoWay l r, b.term = p.term →
        b = Translation.added p.term p.translation) ∧
    (∀ q ∈ r, (∀ p ∈ l, p.term ≠ q.term) →
      Translation.removed q.term q.translation q.term_id ∈ twoWay l r ∧
      ∀ b ∈ twoWay l r, b.term = q.term →
        b = Translation.removed q.term q.translation q.term_id) ∧
    (∀ p ∈ l, ∀ q ∈ r, p.term = q.term → p.translation = q.translation →
      ∀ b ∈ twoWay l r, b.term ≠ p.term) := by
  refine ⟨?_, ?_, ?_, ?_⟩
  · intro p hp q hq hterm hne hnemp
    refine ⟨(mem_twoWay_iff hl hr).mpr
      (Or.inl ⟨p, hp, q, hq, hterm, hne, hnemp, rfl⟩), ?_⟩
    intro b hb hbterm
    rcases (mem_twoWay_iff hl hr).mp hb with
      ⟨p2, hp2, q2, hq2, ht2, hne2, hnemp2, rfl⟩ | ⟨p2, hp2, hall2, rfl⟩ |
      ⟨q2, hq2, hall2, rfl⟩
    · have hp2p : p2 = p :=
        key_eq_inj_of_pairwise_ne hl p2 hp2 p hp hbterm
      subst hp2p
      have hq2q : q2 = q := key_eq_inj_of_pairwise_ne hr q2 hq2 q hq
        (ht2.symm.trans hterm)
      subst hq2q
      rfl
    · exact absurd (hterm.symm.trans hbterm.symm) (hall2 q hq)
    · exact absurd hbterm.symm (hall2 p hp)
  · intro p hp hall
    refine ⟨(mem_twoWay_iff hl hr).mpr
      (Or.inr (Or.inl ⟨p, hp, hall, rfl⟩)), ?_⟩
    intro b hb hbterm
    rcases (mem_twoWay_iff hl hr).mp hb with
      ⟨p2, hp2, q2, hq2, ht2, hne2, hnemp2, rfl⟩ | ⟨p2, hp2, hall2, rfl⟩ |
      ⟨q2, hq2, hall2, rfl⟩
    · exact absurd (ht2.symm.trans hbterm) (fun h => hall q2 hq2 h)
    · have : p2 = p := key_eq_inj_of_pairwise_ne hl p2 hp2 p hp hbterm
      subst this
      rfl
    · exact absurd hbterm (fun h => hall q2 hq2 h)
  · intro q hq hall
    refine ⟨(mem_twoWay_iff hl hr).mpr
      (Or.inr (Or.inr ⟨q, hq, hall, rfl⟩)), ?_⟩
    intro b hb hbterm
    rcases (mem_twoWay_iff hl hr).mp hb with
      ⟨p2, hp2, q2, hq2, ht2, hne2, hnemp2, rfl⟩ | ⟨p2, hp2, hall2, rfl⟩ |
      ⟨q2, hq2, hall2, rfl⟩
    · exact absurd hbterm (hall p2 hp2)
    · exact absurd hbterm (hall p2 hp2)
    · have : q2 = q := key_eq_inj_of_pairwise_ne hr q2 hq2 q hq hbterm
      subst this
      rfl
  · intro p hp q hq hterm heq
    exact twoWay_no_action_of_agree hl hr hp hq hterm (Or.inl heq)

/-- Claim C2, witness at a concrete input: local `{1 ↦ "a"}` against
remote `{1(id="i") ↦ "b"}` yields the `Updated` action. -/
theorem C2_witness :
    Translation.updated 1 "a" "i" ∈
      twoWay (K := Nat) [⟨1, "a"⟩] [⟨"i", 1, "b"⟩] :=
  ((C2_twoWay_classification [⟨1, "a"⟩] [⟨"i", 1, "b"⟩] (by decide)
    (by decide)).1 ⟨1, "a"⟩ (by decide) ⟨"i", 1, "b"⟩ (by decide) rfl
    (by decide) (by decide)).1

/-- Translating "no action for this key" into a filter equation. -/
theorem filter_key_eq_nil {α K : Type} [DecidableEq K] {key : α → K}
    {out : List α} {k : K} (h : ∀ a ∈ out, key a ≠ k) :
    out.filter (fun a => key a = k) = [] := by
  rw [List.filter_eq_nil_iff]
  intro a ha
  simp only [decide_eq_true_eq]
  exact h a ha

/-- Claim C3: a key present in both Local and Remote whose texts differ
but whose local text is empty produces no Action for that key, for any
baseline. -/
theorem C3_empty_text_safety {K : Type} [LinearOrder K]
    (l : List (LocalTranslation K)) (r : List (RemoteTranslation K))
    (g : List (LocalTranslation K))
    (hl : l.Pairwise fun a b => a.term ≠ b.term)
    (hr : r.Pairwise fun a b => a.term ≠ b.term)
    (p : LocalTranslation K) (q : RemoteTranslation K)
    (hp : p ∈ l) (hq : q ∈ r) (hterm : p.term = q.term)
    (hdiff : p.translation ≠ q.translation) (hemp : p.translation = "") :
    (merge l r g).filter (fun a => a.term = p.term) = [] := by
  refine filter_key_eq_nil fun a ha => ?_
  have hsub : a ∈ twoWay l r := by
    rw [merge_eq_refine_twoWay] at ha
    exact mem_of_mem_refine ha
  exact twoWay_no_action_of_agree hl hr hp hq hterm (Or.inr hemp) a hsub

/-- Claim C3, witness at a concrete input (the `data.rs` unit test): an
empty local text against remote text `"hello world"` yields no action for
the key. -/
theorem C3_witness :
    (merge (K := Nat) [⟨1, ""⟩] [⟨"example-id", 1, "hello world"⟩]
        []).filter (fun a => a.term = 1) = [] :=
  C3_empty_text_safety [⟨1, ""⟩] [⟨"example-id", 1, "hello world"⟩] []
    (by decide) (by decide) ⟨1, ""⟩ ⟨"example-id", 1, "hello world"⟩
    (by decide) (by decide) rfl (by decide) rfl

/-- Claim C4: a tentative `Updated` action whose key is present in the
baseline survives refinement exactly when its (local) text differs from
the baseline text for that key. -/
theorem C4_updated_refinement {K : Type} [LinearOrder K]
    (t : List (Translation K)) (g : List (LocalTranslation K))
    (ht : t.Pairwise fun a b => a.term < b.term)
    (hg : g.Pairwise fun a b => a.term ≠ b.term)
    (act : Translation K) (id2 : TermId) (hact : act ∈ t)
    (hmod : act.modification = .Updated id2)
    (q : LocalTranslation K) (hq : q ∈ g) (hqterm : q.term = act.term) :
    act ∈ refine t g ↔ act.translation ≠ q.translation := by
  rw [mem_refine_iff ht hg]
  constructor
  · rintro ⟨-, hkeep⟩
    simp only [keepCond, hmod] at hkeep
    exact hkeep q hq hqterm
  · intro hne
    refine ⟨hact, ?_⟩
    simp only [keepCond, hmod]
    intro q2 hq2 hq2t
    have : q2 = q := key_eq_inj_of_pairwise_ne hg q2 hq2 q hq
      (hq2t.trans hqterm.symm)
    subst this
    exact hne

/-- Claim C4, witness at a concrete input (spec Scenario E shape): the
local text differs from the baseline text, so the `Updated` action is
kept. -/
theorem C4_witness :
    Translation.updated 1 "new-local" "i" ∈
      refine (K := Nat) [Translation.updated 1 "new-local" "i"]
        [⟨1, "old-local"⟩] :=
  (C4_updated_refinement [Translation.updated 1 "new-local" "i"]
    [⟨1, "old-local"⟩] (by decide) (by decide)
    (Translation.updated 1 "new-local" "i") "i" (by decide) rfl
    ⟨1, "old-local"⟩ (by decide) rfl).mpr (by decide)

/-- Claim C5: a tentative `Removed` action survives refinement exactly
when its key is present in the baseline. -/
theorem C5_removed_refinement {K : Type} [LinearOrder K]
    (t : List (Translation K)) (g : List (LocalTranslation K))
    (ht : t.Pairwise fun a b => a.term < b.term)
    (hg : g.Pairwise fun a b => a.term ≠ b.term)
    (act : Translation K) (id2 : TermId) (hact : act ∈ t)
    (hmod : act.modification = .Removed id2) :
    act ∈ refine t g ↔ ∃ q ∈ g, q.term = act.term := by
  rw [mem_refine_iff ht hg]
  constructor
  · rintro ⟨-, hkeep⟩
    simp only [keepCond, hmod] at hkeep
    exact hkeep
  · intro hex
    refine ⟨hact, ?_⟩
    simp only [keepCond, hmod]
    exact hex

/-- Claim C5, witness at a concrete input (spec Scenario B shape): the
baseline contains the key, so the `Removed` action is kept. -/
theorem C5_witness :
    Translation.removed 1 "hi" "i" ∈
      refine (K := Nat) [Translation.removed 1 "hi" "i"] [⟨1, "hi"⟩] :=
  (C5_removed_refinement [Translation.removed 1 "hi" "i"] [⟨1, "hi"⟩]
    (by decide) (by decide) (Translation.removed 1 "hi" "i") "i"
    (by decide) rfl).mpr ⟨⟨1, "hi"⟩, by decide, rfl⟩

/-- Claim C6: a tentative `Added` action whose key is present in the
baseline is dropped (no action with that key survives), and a baseline
key with no tentative action at all never appears in the final output. -/
theorem C6_added_refinement {K : Type} [LinearOrder K]
    (t : List (Translation K)) (g : List (LocalTranslation K))
    (ht : t.Pairwise fun a b => a.term < b.term)
    (hg : g.Pairwise fun a b => a.term ≠ b.term) :
    (∀ act ∈ t, act.modification = .Added → ∀ q ∈ g, q.term = act.term →
      (refine t g).filter (fun a => a.term = act.term) = []) ∧
    (∀ q ∈ g, (∀ act ∈ t, act.term ≠ q.term) →
      (refine t g).filter (fun a => a.term = q.term) = []) := by
  constructor
  · intro act hact hmod q hq hqterm
    refine filter_key_eq_nil fun a ha hterm => ?_
    obtain ⟨hat, hkeep⟩ := (mem_refine_iff ht hg).mp ha
    have : a = act := key_eq_inj_of_pairwise_ne
      (pairwise_ne_of_pairwise_lt ht) a hat act hact hterm
    subst this
    simp only [keepCond, hmod] at hkeep
    exact hkeep q hq hqterm
  · intro q hq hall
    refine filter_key_eq_nil fun a ha hterm => ?_
    exact hall a (mem_of_mem_refine ha) hterm

/-- Claim C6, witness at a concrete input: an `Added` action whose key is
in the baseline leaves no action for that key. -/
theorem C6_witness :
    (refine (K := Nat) [Translation.added 1 "x"] [⟨1, "y"⟩]).filter
      (fun a => a.term = 1) = [] :=
  (C6_added_refinement [Translation.added 1 "x"] [⟨1, "y"⟩] (by decide)
    (by decide)).1 (Translation.added 1 "x") (by decide) rfl ⟨1, "y"⟩
    (by decide) rfl

/-- Claim C7: for unique-key snapshots the final action sequence is
sorted ascending by key, and permuting the records inside each input
snapshot leaves the output identical. -/
theorem C7_ordering_determinism {K : Type} [LinearOrder K]
    (l l2 : List (LocalTranslation K)) (r r2 : List (RemoteTranslation K))
    (g g2 : List (LocalTranslation K))
    (hl : l.Pairwise fun a b => a.term ≠ b.term)
    (hr : r.Pairwise fun a b => a.term ≠ b.term)
    (hg : g.Pairwise fun a b => a.term ≠ b.term)
    (hpl : List.Perm l l2) (hpr : List.Perm r r2)
    (hpg : List.Perm g g2) :
    ((merge l r g).Pairwise fun a b => a.term < b.term) ∧
      merge l r g = merge l2 r2 g2 := by
  constructor
  · rw [merge_eq_refine_twoWay]
    exact refine_pairwise_lt (twoWay_pairwise_lt hl hr) hg
  · simp only [merge]
    rw [sortBy_eq_of_perm _ hpl hl, sortBy_eq_of_perm _ hpr hr,
      sortBy_eq_of_perm _ hpg hg]

/-- Claim C7, witness at a concrete input: swapping the two local records
does not change the output. -/
theorem C7_witness :
    merge (K := Nat) [⟨1, "a"⟩, ⟨2, "b"⟩] [] [] =
      merge (K := Nat) [⟨2, "b"⟩, ⟨1, "a"⟩] [] [] :=
  (C7_ordering_determinism [⟨1, "a"⟩, ⟨2, "b"⟩] [⟨2, "b"⟩, ⟨1, "a"⟩] [] []
    [] [] (by decide) (by decide) (by decide) (by decide) (by decide)
    (by decide)).2

/-- Claim C8: every action in the full (three-way refined) output is an
element of the Two-Way-Merge tentative output — refinement never invents
or modifies actions. -/
theorem C8_subset {K : Type} [LinearOrder K]
    (l : List (LocalTranslation K)) (r : List (RemoteTranslation K))
    (g : List (LocalTranslation K)) (a : Translation K)
    (ha : a ∈ merge l r g) : a ∈ twoWay l r := by
  rw [merge_eq_refine_twoWay] at ha
  exact mem_of_mem_refine ha

/-- Claim C8, witness at a concrete input: the single `Added` output of
`merge` is also in the tentative output. -/
theorem C8_witness :
    Translation.added 1 "x" ∈ twoWay (K := Nat) [⟨1, "x"⟩] [] :=
  C8_subset [⟨1, "x"⟩] [] [] (Translation.added 1 "x") (by decide)

/-- Claim C9: once client creation succeeds, `updater::run` attempts
every action, returns `Ok(())` exactly when no action failed, and
otherwise returns `Err(Error::Update(errs))` where `errs` is exactly the
list of the failed actions' term/translation/cause triples — a failing
action never prevents later actions from being attempted and reported. -/
theorem C9_run_partial_failure {K C E : Type} (createClient : Except E C)
    (removeFn : TermId → C → Except E Unit)
    (updateFn : TermId → String → C → Except (String × E) Unit)
    (addFn : K → String → C → Except (K × String × E) Unit)
    (translations : List (Translation K)) (client : C)
    (hc : createClient = .ok client) :
    (Updater.run createClient removeFn updateFn addFn translations =
        .ok () ↔
      ∀ t ∈ translations,
        Updater.applyAction removeFn updateFn addFn client t = none) ∧
    (∀ errs, Updater.run createClient removeFn updateFn addFn
        translations = .error (.Update errs) ↔
      (errs = translations.filterMap
          (Updater.applyAction removeFn updateFn addFn client) ∧
        errs ≠ [])) ∧
    (∀ t ∈ translations, ∀ e,
      Updater.applyAction removeFn updateFn addFn client t = some e →
      ∃ errs, Updater.run createClient removeFn updateFn addFn
          translations = .error (.Update errs) ∧ e ∈ errs) := by
  refine ⟨run_ok_iff hc, run_error_iff hc, ?_⟩
  intro t ht e he
  have hmem : e ∈ translations.filterMap
      (Updater.applyAction removeFn updateFn addFn client) :=
    List.mem_filterMap.mpr ⟨t, ht, he⟩
  exact ⟨_, (run_error_iff hc _).mpr ⟨rfl, List.ne_nil_of_mem hmem⟩, hmem⟩

/-- Claim C9, witness at a concrete input: with two actions of which
only the first (`Removed`) fails, `run` still reports exactly that one
failure and the second action was attempted (it contributes no error). -/
theorem C9_witness :
    Updater.run (K := Nat) (.ok ())
        (fun _ _ => .error "boom")
        (fun _ _ _ => .ok ())
        (fun _ _ _ => .ok ())
        [⟨1, "x", .Removed "i"⟩, ⟨2, "y", .Added⟩] =
      .error (.Update [(1, "x", "boom")]) :=
  ((C9_run_partial_failure (.ok ()) (fun _ _ => .error "boom")
    (fun _ _ _ => .ok ()) (fun _ _ _ => .ok ())
    [⟨1, "x", .Removed "i"⟩, ⟨2, "y", .Added⟩] () rfl).2.1
    [(1, "x", "boom")]).mpr ⟨by decide, by decide⟩

/-- Claim C10: in the synthesized Remote snapshot, a remote term with no
translation record for the locale appears with empty text, every
synthesized record stems from a term (orphan translation records are
dropped), and a local record with empty text for such a term yields no
action for that key. -/
theorem C10_remote_synthesis {K : Type} [LinearOrder K]
    (terms : List (Term K)) (tls : List ApiTranslation)
    (l g : List (LocalTranslation K))
    (hids : terms.Pairwise fun a b => a.id ≠ b.id)
    (hvals : terms.Pairwise fun a b => a.value ≠ b.value)
    (htls : tls.Pairwise fun a b => a.term_id ≠ b.term_id)
    (hl : l.Pairwise fun a b => a.term ≠ b.term) :
    (∀ tm ∈ terms, (∀ tl ∈ tls, tl.term_id ≠ tm.id) →
      (⟨tm.id, tm.value, ""⟩ : RemoteTranslation K) ∈
        fetchFromTraduora terms tls) ∧
    (∀ rt ∈ fetchFromTraduora terms tls,
      ∃ tm ∈ terms, rt.term_id = tm.id ∧ rt.term = tm.value) ∧
    (∀ p ∈ l, p.translation = "" → ∀ tm ∈ terms, tm.value = p.term →
      (∀ tl ∈ tls, tl.term_id ≠ tm.id) →
      (merge l (fetchFromTraduora terms tls) g).filter
        (fun a => a.term = p.term) = []) := by
  refine ⟨?_, fetch_origin, ?_⟩
  · intro tm htm hall
    exact (mem_fetchFromTraduora_iff hids htls).mpr
      (Or.inr ⟨tm, htm, hall, rfl⟩)
  · intro p hp hemp tm htm hval hall
    have hrmem : (⟨tm.id, tm.value, ""⟩ : RemoteTranslation K) ∈
        fetchFromTraduora terms tls :=
      (mem_fetchFromTraduora_iff hids htls).mpr
        (Or.inr ⟨tm, htm, hall, rfl⟩)
    have hrne := fetch_pairwise_term_ne hids hvals htls
    refine filter_key_eq_nil fun a ha => ?_
    have hsub : a ∈ twoWay l (fetchFromTraduora terms tls) := by
      rw [merge_eq_refine_twoWay] at ha
      exact mem_of_mem_refine ha
    exact twoWay_no_action_of_agree hl hrne hp hrmem hval.symm
      (Or.inl hemp) a hsub

/-- Claim C10, witness at a concrete input: a term with id `"i1"` and no
translation record is synthesized with empty text. -/
theorem C10_witness :
    (⟨"i1", 1, ""⟩ : RemoteTranslation Nat) ∈
      fetchFromTraduora (K := Nat) [⟨"i1", 1⟩] [] :=
  (C10_remote_synthesis [⟨"i1", 1⟩] [] [] [] (by decide) (by decide)
    (by decide) (by decide)).1 ⟨"i1", 1⟩ (by decide) (by decide)

